/-
Verification of the KBEngine common runtime primitives
(kbe/src/lib/common: timer.h / timer.inl, objectpool.h, refcountable.h).

The C++ code is shallowly embedded as executable Lean definitions:

* TimersT<TIME_STAMP> is modelled with the TIME_STAMP template parameter
  instantiated at the unbounded naturals (the template is generic in the
  timestamp type; the uint32/uint64 typedef instantiations behave
  identically below the wrap point).
* The PriorityQueue wrapper around std::push_heap / std::pop_heap /
  std::make_heap (a binary min-heap on trigger time, ties broken
  arbitrarily) is modelled by its standard-specified contract: the
  container holds its elements with a minimal-time element at the front.
  Concretely the container is kept as a time-sorted list, which is one
  canonical heap-ordered arrangement; push is ordered insertion, pop
  removes the front, make_heap after a partition is the identity on the
  already-sorted remainder.
* Pointer identity of Time objects is modelled by a tid field drawn from
  an allocation counter; a TimerHandle is an optional tid.
* The TimerHandler callback is modelled as a pure observer: a firing is
  recorded as an event (tid, trigger time at firing) and the callback
  itself mutates nothing.  The claims under check quantify over
  add / cancel / process / clear call sequences, not over handler
  behaviours.
* The while-loop of TimersT::process is modelled with an explicit
  iteration bound (a loop variant); the bound used by the process wrapper
  is proved sufficient: at the returned state the loop condition is false.
* Machine integers that only count (numCancelled_, numFired, long
  refCount_) are modelled as Int exactly where the C++ type is signed.
-/
import Mathlib

namespace KBE

/-- Lifecycle state of a timer entry (TimeBase::TimeState). -/
inductive TimeState
  | pending
  | executing
  | cancelled
  deriving DecidableEq

/-- One timer entry: TimersT::Time (a TimeBase with a trigger time and an
interval).  The tid field models the identity of the heap-allocated node
(pointer identity); user models the opaque user-data pointer; handler
models whether the pHandler_ pointer is still set (cancel nulls it). -/
structure TimeEntry where
  tid : Nat
  time : Nat
  interval : Nat
  user : Nat
  handler : Bool
  state : TimeState
  deriving DecidableEq

/-- Comparison used by TimersT::Comparator: the priority queue is a
min-heap on the trigger time. -/
def byTime (a b : TimeEntry) : Prop := a.time ≤ b.time

instance : DecidableRel byTime := fun a b => Nat.decLe a.time b.time

instance : IsTotal TimeEntry byTime := ⟨fun a b => Nat.le_total a.time b.time⟩

instance : IsTrans TimeEntry byTime := ⟨fun _ _ _ h h' => Nat.le_trans h h'⟩

/-- Heap-ordered arrangement of the queue container: sorted by trigger
time, so the front is a minimal-time element (the heap top). -/
def QSorted (q : List TimeEntry) : Prop := List.Sorted byTime q

/-- PriorityQueue::push, modelled by the heap contract: insert keeping a
minimal-time element at the front (ordered insertion). -/
def qPush (e : TimeEntry) (q : List TimeEntry) : List TimeEntry :=
  List.orderedInsert byTime e q

/-- Number of cancelled entries resident in the container. -/
def countCancelled (q : List TimeEntry) : Nat :=
  q.countP (fun e => e.state = TimeState.cancelled)

/-- The whole scheduler state: TimersT's fields.  nextTid models the
allocator from which new Time nodes get their identity. -/
structure TimersState where
  timeQueue : List TimeEntry
  pProcessingNode : Option Nat
  lastProcessTime : Nat
  numCancelled : Int
  nextTid : Nat
  deriving DecidableEq

/-- TimersT::TimersT(): empty queue, no processing node, counters zero. -/
def initTimers : TimersState :=
  { timeQueue := [], pProcessingNode := none, lastProcessTime := 0,
    numCancelled := 0, nextTid := 0 }

/-- TimersT::purgeCancelledTimes: std::partition splits the container into
still-pending entries followed by the cancelled ones, the cancelled tail
is deleted and erased, numCancelled_ drops by the number purged, and
make_heap rebuilds the heap (in the sorted-list arrangement the pending
remainder of a sorted container is already sorted). -/
def purgeCancelledTimes (s : TimersState) : TimersState :=
  let numPurged := countCancelled s.timeQueue
  { s with
    timeQueue := s.timeQueue.filter (fun e => ¬ e.state = TimeState.cancelled),
    numCancelled := s.numCancelled - numPurged }

/-- TimersT::onCancel: count the cancellation and purge eagerly once the
cancelled entries exceed half the queue size. -/
def onCancel (s : TimersState) : TimersState :=
  let s1 := { s with numCancelled := s.numCancelled + 1 }
  if s1.numCancelled * 2 > (s1.timeQueue.length : Int) then
    purgeCancelledTimes s1
  else
    s1

/-- TimersT::add: allocate a fresh pending entry and push it into the
queue; the returned handle is the new entry's identity. -/
def addT (startTime interval user : Nat) (s : TimersState) :
    TimersState × Nat :=
  let e : TimeEntry :=
    { tid := s.nextTid, time := startTime, interval := interval,
      user := user, handler := true, state := TimeState.pending }
  ({ s with timeQueue := qPush e s.timeQueue, nextTid := s.nextTid + 1 },
   s.nextTid)

/-- TimeBase::cancel restricted to the entry itself: a no-op when already
cancelled, otherwise flip the state to cancelled and release the handler
pointer.  The owner_.onCancel() side effect is applied by the caller,
matching the source order (state flips first). -/
def cancelEntry (e : TimeEntry) : TimeEntry :=
  if e.state = TimeState.cancelled then e
  else { e with state := TimeState.cancelled, handler := false }

/-- Cancelling through a TimerHandle while the entry sits in the queue:
if the handle points at a resident non-cancelled entry, that entry is
flipped to cancelled and the owner is notified (TimeBase::cancel followed
by TimersT::onCancel); cancelling an already-cancelled entry is a defined
no-op.  A handle whose entry is no longer resident dereferences freed
memory in C++; such calls are outside the model and are mapped to no-ops. -/
def cancelOp (tid : Nat) (s : TimersState) : TimersState :=
  if ∃ e ∈ s.timeQueue, e.tid = tid ∧ ¬ e.state = TimeState.cancelled then
    onCancel { s with
      timeQueue := s.timeQueue.map
        (fun e => if e.tid = tid then cancelEntry e else e) }
  else
    s

/-- TimersT::Time::triggerTimer with the handler modelled as a pure
observer: a non-cancelled entry enters the executing state, the handler
fires, a zero-interval entry is then cancelled, and an entry still alive
afterwards advances its trigger time by its interval and returns to
pending. -/
def triggerTimer (e : TimeEntry) : TimeEntry :=
  if e.state = TimeState.cancelled then e
  else
    let e1 := { e with state := TimeState.executing }
    let e2 := if e1.interval = 0 then cancelEntry e1 else e1
    if e2.state = TimeState.cancelled then e2
    else { e2 with time := e2.time + e2.interval, state := TimeState.pending }

/-- Loop variant for TimersT::process: a cancelled resident entry costs
one pop; a due pending entry with interval i refires every i ticks until
its time passes now; an entry beyond now costs nothing. -/
def entryMeasure (now : Nat) (e : TimeEntry) : Nat :=
  if e.state = TimeState.cancelled then 1
  else if e.time ≤ now then (now - e.time) / max e.interval 1 + 2
  else 0

/-- Loop variant of the whole queue: sum of the entry variants. -/
def queueMeasure (now : Nat) (q : List TimeEntry) : Nat :=
  (q.map (entryMeasure now)).sum

/-- Result of TimersT::process: the final scheduler state, the recorded
handler invocations in firing order (tid and trigger time at firing), and
the returned numFired counter. -/
structure ProcessResult where
  state : TimersState
  fired : List (Nat × Nat)
  numFired : Int
  deriving DecidableEq

/-- The while-loop of TimersT::process, with an explicit iteration bound.
While the queue top is due or cancelled: pop it; a cancelled pop is
deleted and decrements numCancelled_; otherwise the entry fires (counted
in numFired) via triggerTimer, and is pushed back unless the firing left
it cancelled, in which case the cancel already notified the owner
(onCancel, possibly purging the rest of the queue) and the entry is
deleted, decrementing numCancelled_. -/
def processLoop (fuel : Nat) (now : Nat) (s : TimersState) : ProcessResult :=
  match fuel with
  | 0 => ⟨s, [], 0⟩
  | fuel + 1 =>
    match s.timeQueue with
    | [] => ⟨s, [], 0⟩
    | top :: rest =>
      if top.time ≤ now ∨ top.state = TimeState.cancelled then
        let s1 : TimersState :=
          { s with timeQueue := rest, pProcessingNode := some top.tid }
        if top.state = TimeState.cancelled then
          processLoop fuel now { s1 with numCancelled := s1.numCancelled - 1 }
        else
          let e := triggerTimer top
          let s2 : TimersState :=
            if e.state = TimeState.cancelled then
              let sc := onCancel s1
              { sc with numCancelled := sc.numCancelled - 1 }
            else
              { s1 with timeQueue := qPush e s1.timeQueue }
          let r := processLoop fuel now s2
          ⟨r.state, (top.tid, top.time) :: r.fired, r.numFired + 1⟩
      else ⟨s, [], 0⟩

/-- TimersT::process: run the loop (the bound is proved sufficient in
processLoop_runs_to_completion), then clear the processing-node pointer
and record the processing time. -/
def process (now : Nat) (s : TimersState) : ProcessResult :=
  let r := processLoop (queueMeasure now s.timeQueue + 1) now s
  ⟨{ r.state with pProcessingNode := none, lastProcessTime := now },
   r.fired, r.numFired⟩

/-- TimersT::nextExp: zero when the queue is empty or now is already past
the top entry's trigger time, otherwise the wait until the top entry. -/
def nextExp (now : Nat) (s : TimersState) : Nat :=
  match s.timeQueue with
  | [] => 0
  | top :: _ => if now > top.time then 0 else top.time - now

/-- TimersT::legal: false for a null handle; true for the entry currently
being processed; otherwise a scan of the heap storage for the pointed-to
entry. -/
def legal (s : TimersState) (h : Option Nat) : Bool :=
  match h with
  | none => false
  | some tid =>
    s.pProcessingNode = some tid || s.timeQueue.any (fun e => e.tid = tid)

/-- TimersT::getTimerInfo on the entry a set handle points at: false (no
outputs written) for a cancelled entry, otherwise true with the entry's
trigger time, interval and user data. -/
def getTimerInfo (e : TimeEntry) : Option (Nat × Nat × Nat) :=
  if ¬ e.state = TimeState.cancelled then some (e.time, e.interval, e.user)
  else none

/-- TimersT::getTimerInfo at the handle level.  The source dereferences
handle.time() with no null guard, so a null handle is a null-pointer
dereference; that fault is modelled as the error outcome. -/
def getTimerInfoH (h : Option TimeEntry) :
    Except Unit (Option (Nat × Nat × Nat)) :=
  match h with
  | none => Except.error ()
  | some e => Except.ok (getTimerInfo e)

/-- The while-loop of TimersT::clear, with an explicit iteration bound
(the queue length, which strictly decreases).  Entries are popped from
the back of the storage; a live entry is cancelled when shouldCallCancel
is still set (numCancelled_ is pre-decremented to balance the increment
done by onCancel, and cancellation work is bounded by the originally
observed size via maxLoopCount); a cancelled pop just decrements
numCancelled_; every popped entry is deleted. -/
def clearLoop (fuel : Nat) (s : TimersState) (scc : Bool) (mlc : Int) :
    TimersState :=
  match fuel with
  | 0 => s
  | fuel + 1 =>
    match s.timeQueue.getLast? with
    | none => s
    | some back =>
      let rest := s.timeQueue.dropLast
      if ¬ back.state = TimeState.cancelled ∧ scc then
        let s1 := onCancel
          { s with timeQueue := rest, numCancelled := s.numCancelled - 1 }
        let mlc1 := mlc - 1
        clearLoop fuel s1 (if mlc1 = 0 then false else scc) mlc1
      else if back.state = TimeState.cancelled then
        clearLoop fuel
          { s with timeQueue := rest, numCancelled := s.numCancelled - 1 }
          scc mlc
      else
        clearLoop fuel { s with timeQueue := rest } scc mlc

/-- TimersT::clear: drain the queue, then reset numCancelled_ to zero and
replace the queue with a fresh empty one. -/
def clearT (scc : Bool) (s : TimersState) : TimersState :=
  let s1 := clearLoop s.timeQueue.length s scc (s.timeQueue.length : Int)
  { s1 with numCancelled := 0, timeQueue := [] }

/-- One public scheduler operation, as in the claims: add, cancel through
a handle, process, or clear. -/
inductive Op
  | add (startTime interval user : Nat)
  | cancel (tid : Nat)
  | process (now : Nat)
  | clear (scc : Bool)
  deriving DecidableEq

/-- Apply one operation to the scheduler state. -/
def applyOp (s : TimersState) : Op → TimersState
  | Op.add t i u => (addT t i u s).1
  | Op.cancel tid => cancelOp tid s
  | Op.process now => (process now s).state
  | Op.clear b => clearT b s

/-- Run a sequence of operations from the freshly constructed scheduler. -/
def runOps (ops : List Op) : TimersState :=
  ops.foldl applyOp initTimers

/-- Run a sequence of add calls (startTime, interval, userData) from the
freshly constructed scheduler. -/
def runAdds (adds : List (Nat × Nat × Nat)) : TimersState :=
  runOps (adds.map (fun a => Op.add a.1 a.2.1 a.2.2))

/-!
ObjectPool<T> (objectpool.h).  Pooled objects are modelled by identities
drawn from an allocation counter (modelling the addresses produced by
new); their onReclaimObject / onEabledPoolObject hooks carry no state in
the model.  obj_count_ is the source's own separately tracked idle count.
-/

/-- OBJECT_POOL_INIT_SIZE: batch size of an allocation burst. -/
def OBJECT_POOL_INIT_SIZE : Nat := 16

/-- ObjectPool<T>'s fields: the idle list (front = list begin), the
capacity ceiling max_, the destroyed flag, the lifetime allocation
counter total_allocs_, the tracked idle count obj_count_, and the
allocator counter for fresh object identities. -/
structure PoolState where
  objects : List Nat
  maxSize : Nat
  isDestroyed : Bool
  totalAllocs : Nat
  objCount : Nat
  nextObjId : Nat
  deriving DecidableEq

/-- ObjectPool(name, preAssignVal, max): max_ is forced to at least 1;
the constructor body ignores preAssignVal (it pre-allocates nothing). -/
def initPool (max : Nat) : PoolState :=
  { objects := [], maxSize := if max = 0 then 1 else max,
    isDestroyed := false, totalAllocs := 0, objCount := 0, nextObjId := 0 }

/-- ObjectPool::assignObjs: push n freshly constructed objects onto the
idle list, counting them in total_allocs_ and obj_count_. -/
def assignObjs (n : Nat) (p : PoolState) : PoolState :=
  { p with
    objects := p.objects ++ (List.range n).map (fun i => p.nextObjId + i),
    nextObjId := p.nextObjId + n,
    totalAllocs := p.totalAllocs + n,
    objCount := p.objCount + n }

/-- The hand-out step of ObjectPool::createObject: take the front of the
idle list, pop it and decrement obj_count_ (the none result is
unreachable while obj_count_ tracks the idle list, which is the C++
precondition for the pop). -/
def popFront (p : PoolState) : PoolState × Option Nat :=
  match p.objects with
  | [] => (p, none)
  | o :: rest => ({ p with objects := rest, objCount := p.objCount - 1 }, some o)

/-- ObjectPool::createObject: loop until the idle list is non-empty,
running an allocation burst of OBJECT_POOL_INIT_SIZE when it is empty
(one burst always suffices since the batch is positive), then pop the
front object. -/
def createObject (p : PoolState) : PoolState × Option Nat :=
  if p.objCount > 0 then popFront p
  else popFront (assignObjs OBJECT_POOL_INIT_SIZE p)

/-- ObjectPool::reclaimObject_ on a non-null object: reset it, then
either delete it (decrementing total_allocs_) when the idle count has
reached max_ or the pool is destroyed, or append it to the idle list. -/
def reclaimObject (p : PoolState) (o : Nat) : PoolState :=
  if p.objCount ≥ p.maxSize ∨ p.isDestroyed then
    { p with totalAllocs := p.totalAllocs - 1 }
  else
    { p with objects := p.objects ++ [o], objCount := p.objCount + 1 }

/-- One pool operation from the claims: a createObject call or a
reclaimObject call returning the most recently checked-out object. -/
inductive PoolOp
  | create
  | reclaim
  deriving DecidableEq

/-- Apply one pool operation; the second component tracks the
checked-out objects so that reclaim returns a real object (a reclaim
with nothing checked out is not modelled). -/
def applyPoolOp (st : PoolState × List Nat) (op : PoolOp) :
    PoolState × List Nat :=
  match op with
  | PoolOp.create =>
    let (p1, o?) := createObject st.1
    match o? with
    | none => (p1, st.2)
    | some o => (p1, o :: st.2)
  | PoolOp.reclaim =>
    match st.2 with
    | [] => st
    | o :: rest => (reclaimObject st.1 o, rest)

/-- Run a sequence of create/reclaim calls on a freshly constructed pool
with ceiling max. -/
def runPoolOps (max : Nat) (ops : List PoolOp) : PoolState × List Nat :=
  ops.foldl applyPoolOp (initPool max, [])

/-!
RefCountable / RefCountedPtr (refcountable.h).  A single counted object
is modelled; hookCalls instruments how many times the destruction hook
onRefOver has run (its default body deletes the object).
-/

/-- A RefCountable object: the signed counter refCount_, plus an
instrumentation counter for invocations of the destruction hook. -/
structure RCObject where
  refCount : Int
  hookCalls : Nat
  deriving DecidableEq

/-- A freshly constructed RefCountable: counter zero, hook never run. -/
def freshRC : RCObject := { refCount := 0, hookCalls := 0 }

/-- RefCountable::onRefOver, instrumented: the default body destroys the
object; the model counts the invocation. -/
def onRefOver (o : RCObject) : RCObject :=
  { o with hookCalls := o.hookCalls + 1 }

/-- RefCountable::incRef: plain increment. -/
def incRef (o : RCObject) : RCObject :=
  { o with refCount := o.refCount + 1 }

/-- RefCountable::decRef: decrement, then invoke onRefOver when the new
count is at most zero (the source asserts it is never negative). -/
def decRef (o : RCObject) : RCObject :=
  let currRef := o.refCount - 1
  let o1 := { o with refCount := currRef }
  if currRef ≤ 0 then onRefOver o1 else o1

/-- One inc/dec call on the counter. -/
inductive RCOp
  | inc
  | dec
  deriving DecidableEq

/-- Apply one counter operation. -/
def applyRC (o : RCObject) : RCOp → RCObject
  | RCOp.inc => incRef o
  | RCOp.dec => decRef o

/-- Run a call sequence on a fresh RefCountable. -/
def runRC (ops : List RCOp) : RCObject :=
  ops.foldl applyRC freshRC

/-- Net balance check: as many increments as decrements. -/
def netZero (ops : List RCOp) : Prop :=
  ops.count RCOp.inc = ops.count RCOp.dec

/-- A RefCountedPtr<T> handle: whether its ptr_ field is non-null (the
model tracks a single shared object). -/
structure RefCountedPtr where
  ptr : Bool
  deriving DecidableEq

/-- Modelled from the spec: RefCountedPtr's constructors call
ptr_->addRef(), a method the src tree never defines (RefCountable, the
base the claims use, defines incRef); the spec states that construction
increments the reference count, so addRef is modelled as incRef. -/
def addRef (o : RCObject) : RCObject := incRef o

/-- RefCountedPtr(T* ptr): take the raw pointer and increment the count
when it is non-null. -/
def rcptrCtorRaw (ptrSet : Bool) (o : RCObject) : RefCountedPtr × RCObject :=
  (⟨ptrSet⟩, if ptrSet then addRef o else o)

/-- RefCountedPtr(RefCountedPtr<T>* refptr): take the other handle's
object and increment the count when it is non-null. -/
def rcptrCtorCopy (h : RefCountedPtr) (o : RCObject) :
    RefCountedPtr × RCObject :=
  (⟨h.ptr⟩, if h.ptr then addRef o else o)

/-- RefCountedPtr destructor: decrement the count when ptr_ is non-null. -/
def rcptrDtor (h : RefCountedPtr) (o : RCObject) : RCObject :=
  if h.ptr then decRef o else o

/-!
Auxiliary definitions used by the statements and invariant proofs.
-/

/-- The while-condition of TimersT::process at a queue: the top entry is
due or cancelled. -/
def dueOrCancelled (now : Nat) (q : List TimeEntry) : Bool :=
  match q with
  | [] => false
  | top :: _ =>
    decide (top.time ≤ now) || decide (top.state = TimeState.cancelled)

/-- Well-formedness of a scheduler state, as maintained by the public
operations: the container is heap-ordered; entry identities are distinct
and below the allocator counter; numCancelled counts exactly the resident
cancelled entries; and the cancelled entries never exceed half the queue. -/
def WFT (s : TimersState) : Prop :=
  QSorted s.timeQueue ∧
  (s.timeQueue.map TimeEntry.tid).Nodup ∧
  (∀ e ∈ s.timeQueue, e.tid < s.nextTid) ∧
  s.numCancelled = (countCancelled s.timeQueue : Int) ∧
  2 * countCancelled s.timeQueue ≤ s.timeQueue.length

/-- Well-formedness of a pool run: obj_count_ tracks the idle list, the
ceiling and destroyed flag are those of construction, and the idle count
respects the ceiling up to the allocation-burst remainder. -/
def PoolInv (m : Nat) (st : PoolState × List Nat) : Prop :=
  st.1.objects.length = st.1.objCount ∧
  st.1.maxSize = (initPool m).maxSize ∧
  st.1.isDestroyed = false ∧
  st.1.objCount ≤ max st.1.maxSize (OBJECT_POOL_INIT_SIZE - 1)

/-- The spec's concrete scenario: timer A (tid 0) added at startTime 100
with interval 0, then timer B (tid 1) added at startTime 50 with
interval 10. -/
def scenarioAB : TimersState :=
  (addT 50 10 0 (addT 100 0 0 initTimers).1).1

/-- First processing step of the concrete scenario, at now = 60. -/
def scenario60 : ProcessResult := process 60 scenarioAB

/-- Second processing step of the concrete scenario, at now = 105. -/
def scenario105 : ProcessResult := process 105 scenario60.state

/-- A reachable state with a lazily cancelled entry at the heap top: add
a timer at 10, add a timer at 100, cancel the first (one cancellation in
a queue of two does not trigger the purge). -/
def scenarioCancelledTop : TimersState :=
  runOps [Op.add 10 0 0, Op.add 100 0 0, Op.cancel 0]

/-- The inc/dec call sequence refuting the exactly-once claim: the count
returns to zero twice, so the destruction hook runs twice. -/
def rcZigZag : List RCOp := [RCOp.inc, RCOp.dec, RCOp.inc, RCOp.dec]

instance (q : List TimeEntry) : Decidable (QSorted q) :=
  List.decidableSorted q

instance (ops : List RCOp) : Decidable (netZero ops) := by
  unfold netZero
  infer_instance

instance (s : TimersState) : Decidable (WFT s) := by
  unfold WFT
  infer_instance

instance (m : Nat) (st : PoolState × List Nat) : Decidable (PoolInv m st) := by
  unfold PoolInv
  infer_instance

/-!
Supporting lemmas.
-/

theorem qPush_perm (e : TimeEntry) (q : List TimeEntry) :
    List.Perm (qPush e q) (e :: q) :=
  List.perm_orderedInsert byTime e q

theorem QSorted.push {q : List TimeEntry} (hs : QSorted q) (e : TimeEntry) :
    QSorted (qPush e q) :=
  List.Sorted.orderedInsert e q hs

theorem countCancelled_qPush (e : TimeEntry) (q : List TimeEntry) :
    countCancelled (qPush e q) = countCancelled (e :: q) :=
  (qPush_perm e q).countP_eq _

theorem length_qPush (e : TimeEntry) (q : List TimeEntry) :
    (qPush e q).length = q.length + 1 :=
  (qPush_perm e q).length_eq

/-- Behaviour of triggerTimer on a live entry: with interval 0 the entry
is cancelled after its firing with the trigger time unchanged, otherwise
it advances its trigger time by the interval and returns to pending. -/
theorem triggerTimer_spec (e : TimeEntry)
    (h : ¬ e.state = TimeState.cancelled) :
    (e.interval = 0 →
      triggerTimer e =
        { e with state := TimeState.cancelled, handler := false }) ∧
    (¬ e.interval = 0 →
      triggerTimer e =
        { e with time := e.time + e.interval, state := TimeState.pending }) := by
  constructor
  · intro h0
    simp [triggerTimer, cancelEntry, h, h0]
  · intro h0
    simp [triggerTimer, cancelEntry, h, h0]

/-- A cancelled entry never fires again: triggerTimer leaves it alone. -/
theorem triggerTimer_cancelled (e : TimeEntry)
    (h : e.state = TimeState.cancelled) : triggerTimer e = e := by
  simp [triggerTimer, h]

theorem cancelEntry_time (e : TimeEntry) : (cancelEntry e).time = e.time := by
  unfold cancelEntry
  split <;> rfl

theorem cancelEntry_tid (e : TimeEntry) : (cancelEntry e).tid = e.tid := by
  unfold cancelEntry
  split <;> rfl

theorem cancelEntry_state (e : TimeEntry) :
    (cancelEntry e).state = TimeState.cancelled := by
  unfold cancelEntry
  split
  · assumption
  · rfl

theorem countCancelled_nil : countCancelled [] = 0 := rfl

theorem countCancelled_cons (e : TimeEntry) (q : List TimeEntry) :
    countCancelled (e :: q) =
      countCancelled q +
        (if e.state = TimeState.cancelled then 1 else 0) := by
  unfold countCancelled
  rw [List.countP_cons]
  by_cases h : e.state = TimeState.cancelled <;> simp [h]

theorem countCancelled_filter_out (q : List TimeEntry) :
    countCancelled
      (q.filter (fun e => ¬ e.state = TimeState.cancelled)) = 0 := by
  unfold countCancelled
  rw [List.countP_eq_zero]
  intro e he
  have := List.of_mem_filter he
  simp at this ⊢
  exact this

theorem length_filter_out (q : List TimeEntry) :
    (q.filter (fun e => ¬ e.state = TimeState.cancelled)).length +
      countCancelled q = q.length := by
  induction q with
  | nil => rfl
  | cons e rest ih =>
    rw [countCancelled_cons]
    by_cases h : e.state = TimeState.cancelled <;>
      simp [List.filter_cons, h] at ih ⊢ <;> omega

/-!
Unfolding equations of the process loop, one per loop branch.
-/

theorem processLoop_zero (now : Nat) (s : TimersState) :
    processLoop 0 now s = ⟨s, [], 0⟩ := rfl

theorem processLoop_nil (fuel now : Nat) (s : TimersState)
    (hq : s.timeQueue = []) :
    processLoop (fuel + 1) now s = ⟨s, [], 0⟩ := by
  unfold processLoop
  rw [hq]

theorem processLoop_not_due (fuel now : Nat) (s : TimersState)
    (top : TimeEntry) (rest : List TimeEntry)
    (hq : s.timeQueue = top :: rest)
    (h : ¬ (top.time ≤ now ∨ top.state = TimeState.cancelled)) :
    processLoop (fuel + 1) now s = ⟨s, [], 0⟩ := by
  unfold processLoop
  rw [hq]
  simp only [if_neg h]

theorem processLoop_pop_cancelled (fuel now : Nat) (s : TimersState)
    (top : TimeEntry) (rest : List TimeEntry)
    (hq : s.timeQueue = top :: rest)
    (hcan : top.state = TimeState.cancelled) :
    processLoop (fuel + 1) now s =
      processLoop fuel now
        { s with timeQueue := rest, pProcessingNode := some top.tid,
                 numCancelled := s.numCancelled - 1 } := by
  conv_lhs => unfold processLoop
  rw [hq]
  simp only [if_pos (Or.inr hcan), if_pos hcan]

theorem processLoop_fire_cancel (fuel now : Nat) (s : TimersState)
    (top : TimeEntry) (rest : List TimeEntry)
    (hq : s.timeQueue = top :: rest)
    (hdue : top.time ≤ now)
    (hcan : ¬ top.state = TimeState.cancelled)
    (hec : (triggerTimer top).state = TimeState.cancelled) :
    processLoop (fuel + 1) now s =
      let sc := onCancel
        { s with timeQueue := rest, pProcessingNode := some top.tid }
      let r := processLoop fuel now
        { sc with numCancelled := sc.numCancelled - 1 }
      ⟨r.state, (top.tid, top.time) :: r.fired, r.numFired + 1⟩ := by
  conv_lhs => unfold processLoop
  rw [hq]
  simp only [if_pos (Or.inl hdue), if_neg hcan, if_pos hec]

theorem processLoop_fire_push (fuel now : Nat) (s : TimersState)
    (top : TimeEntry) (rest : List TimeEntry)
    (hq : s.timeQueue = top :: rest)
    (hdue : top.time ≤ now)
    (hcan : ¬ top.state = TimeState.cancelled)
    (hec : ¬ (triggerTimer top).state = TimeState.cancelled) :
    processLoop (fuel + 1) now s =
      let r := processLoop fuel now
        { s with timeQueue := qPush (triggerTimer top) rest,
                 pProcessingNode := some top.tid }
      ⟨r.state, (top.tid, top.time) :: r.fired, r.numFired + 1⟩ := by
  conv_lhs => unfold processLoop
  rw [hq]
  simp only [if_pos (Or.inl hdue), if_neg hcan, if_neg hec]

/-!
Behaviour of onCancel and purgeCancelledTimes.
-/

theorem purge_fields (s : TimersState) :
    (purgeCancelledTimes s).timeQueue =
      s.timeQueue.filter (fun e => ¬ e.state = TimeState.cancelled) ∧
    (purgeCancelledTimes s).numCancelled =
      s.numCancelled - countCancelled s.timeQueue ∧
    (purgeCancelledTimes s).pProcessingNode = s.pProcessingNode ∧
    (purgeCancelledTimes s).nextTid = s.nextTid :=
  ⟨rfl, rfl, rfl, rfl⟩

theorem onCancel_of_le (s : TimersState)
    (h : ¬ (s.numCancelled + 1) * 2 > (s.timeQueue.length : Int)) :
    onCancel s = { s with numCancelled := s.numCancelled + 1 } := by
  unfold onCancel
  rw [if_neg h]

theorem onCancel_of_gt (s : TimersState)
    (h : (s.numCancelled + 1) * 2 > (s.timeQueue.length : Int)) :
    onCancel s =
      purgeCancelledTimes { s with numCancelled := s.numCancelled + 1 } := by
  unfold onCancel
  rw [if_pos h]

theorem onCancel_queue_cases (s : TimersState) :
    (onCancel s).timeQueue = s.timeQueue ∨
    (onCancel s).timeQueue =
      s.timeQueue.filter (fun e => ¬ e.state = TimeState.cancelled) := by
  by_cases h : (s.numCancelled + 1) * 2 > (s.timeQueue.length : Int)
  · rw [onCancel_of_gt s h]
    exact Or.inr rfl
  · rw [onCancel_of_le s h]
    exact Or.inl rfl

theorem onCancel_mem (s : TimersState) (e : TimeEntry)
    (he : e ∈ (onCancel s).timeQueue) : e ∈ s.timeQueue := by
  rcases onCancel_queue_cases s with h | h <;> rw [h] at he
  · exact he
  · exact List.mem_of_mem_filter he

theorem onCancel_nextTid (s : TimersState) :
    (onCancel s).nextTid = s.nextTid := by
  by_cases h : (s.numCancelled + 1) * 2 > (s.timeQueue.length : Int)
  · rw [onCancel_of_gt s h]
    rfl
  · rw [onCancel_of_le s h]

theorem triggerTimer_fire_push (top : TimeEntry)
    (hcan : ¬ top.state = TimeState.cancelled)
    (hec : ¬ (triggerTimer top).state = TimeState.cancelled) :
    triggerTimer top =
      { top with time := top.time + top.interval,
                 state := TimeState.pending } := by
  by_cases h0 : top.interval = 0
  · exfalso
    apply hec
    rw [(triggerTimer_spec top hcan).1 h0]
  · exact (triggerTimer_spec top hcan).2 h0

theorem mem_qPush {x e : TimeEntry} {q : List TimeEntry} :
    x ∈ qPush e q ↔ x = e ∨ x ∈ q := by
  unfold qPush
  exact List.mem_orderedInsert byTime

/-- Everything the C1 claim needs about one run of the process loop, by
induction on the iteration bound: from a heap-ordered queue, the final
queue is heap-ordered, every recorded firing is at a trigger time at most
now, the recorded firings are in non-decreasing trigger-time order,
numFired equals the number of recorded firings, and every firing is at or
above any lower bound of the input queue's trigger times. -/
theorem processLoop_fired (now : Nat) :
    ∀ (fuel : Nat) (s : TimersState), QSorted s.timeQueue →
      QSorted (processLoop fuel now s).state.timeQueue ∧
      (∀ ev ∈ (processLoop fuel now s).fired, ev.2 ≤ now) ∧
      List.Pairwise (fun a b : Nat × Nat => a.2 ≤ b.2)
        (processLoop fuel now s).fired ∧
      (processLoop fuel now s).numFired =
        ((processLoop fuel now s).fired.length : Int) ∧
      (∀ c : Nat, (∀ e ∈ s.timeQueue, c ≤ e.time) →
        ∀ ev ∈ (processLoop fuel now s).fired, c ≤ ev.2) := by
  intro fuel
  induction fuel with
  | zero =>
    intro s hs
    rw [processLoop_zero]
    exact ⟨hs, by simp, by simp, by simp, by simp⟩
  | succ fuel ih =>
    intro s hs
    cases hq : s.timeQueue with
    | nil =>
      rw [processLoop_nil fuel now s hq]
      exact ⟨hs, by simp, by simp, by simp, by simp⟩
    | cons top rest =>
      have hs' : QSorted (top :: rest) := hq ▸ hs
      have hsrest : QSorted rest := (List.sorted_cons.mp hs').2
      have htop : ∀ e ∈ rest, top.time ≤ e.time :=
        fun e he => (List.sorted_cons.mp hs').1 e he
      by_cases hcond : top.time ≤ now ∨ top.state = TimeState.cancelled
      · by_cases hcan : top.state = TimeState.cancelled
        · rw [processLoop_pop_cancelled fuel now s top rest hq hcan]
          have h := ih
            { s with timeQueue := rest, pProcessingNode := some top.tid,
                     numCancelled := s.numCancelled - 1 } hsrest
          refine ⟨h.1, h.2.1, h.2.2.1, h.2.2.2.1, ?_⟩
          intro c hc ev hev
          refine h.2.2.2.2 c ?_ ev hev
          intro e he
          exact hc e (List.mem_cons_of_mem _ he)
        · have hdue : top.time ≤ now := hcond.resolve_right hcan
          by_cases hec : (triggerTimer top).state = TimeState.cancelled
          · rw [processLoop_fire_cancel fuel now s top rest hq hdue hcan hec]
            simp only []
            set s1 : TimersState :=
              { s with timeQueue := rest,
                       pProcessingNode := some top.tid } with hs1
            set s2 : TimersState :=
              { onCancel s1 with
                numCancelled := (onCancel s1).numCancelled - 1 } with hs2
            have hq2 : s2.timeQueue = (onCancel s1).timeQueue := rfl
            have hsub : ∀ e ∈ s2.timeQueue, e ∈ rest := by
              intro e he
              rw [hq2] at he
              exact onCancel_mem s1 e he
            have hsorted2 : QSorted s2.timeQueue := by
              rw [hq2]
              rcases onCancel_queue_cases s1 with h | h <;> rw [h]
              · exact hsrest
              · exact hsrest.filter _
            have h := ih s2 hsorted2
            refine ⟨h.1, ?_, ?_, ?_, ?_⟩
            · intro ev hev
              rcases List.mem_cons.mp hev with hev | hev
              · rw [hev]
                exact hdue
              · exact h.2.1 ev hev
            · refine List.Pairwise.cons ?_ h.2.2.1
              intro ev hev
              exact h.2.2.2.2 top.time
                (fun e he => htop e (hsub e he)) ev hev
            · rw [h.2.2.2.1, List.length_cons]
              push_cast
              ring
            · intro c hc ev hev
              rcases List.mem_cons.mp hev with hev | hev
              · rw [hev]
                exact hc top (List.mem_cons_self top rest)
              · refine h.2.2.2.2 c ?_ ev hev
                intro e he
                exact hc e (List.mem_cons_of_mem _ (hsub e he))
          · rw [processLoop_fire_push fuel now s top rest hq hdue hcan hec]
            simp only []
            have hepush := triggerTimer_fire_push top hcan hec
            set s2 : TimersState :=
              { s with timeQueue := qPush (triggerTimer top) rest,
                       pProcessingNode := some top.tid } with hs2
            have hsorted2 : QSorted s2.timeQueue := hsrest.push _
            have hbound2 : ∀ e ∈ s2.timeQueue, top.time ≤ e.time := by
              intro e he
              rcases mem_qPush.mp he with he | he
              · rw [he, hepush]
                exact Nat.le_add_right _ _
              · exact htop e he
            have h := ih s2 hsorted2
            refine ⟨h.1, ?_, ?_, ?_, ?_⟩
            · intro ev hev
              rcases List.mem_cons.mp hev with hev | hev
              · rw [hev]
                exact hdue
              · exact h.2.1 ev hev
            · refine List.Pairwise.cons ?_ h.2.2.1
              intro ev hev
              exact h.2.2.2.2 top.time hbound2 ev hev
            · rw [h.2.2.2.1, List.length_cons]
              push_cast
              ring
            · intro c hc ev hev
              rcases List.mem_cons.mp hev with hev | hev
              · rw [hev]
                exact hc top (List.mem_cons_self top rest)
              · refine h.2.2.2.2 c ?_ ev hev
                intro e he
                rcases mem_qPush.mp he with he | he
                · rw [he, hepush]
                  have hct : c ≤ top.time := hc top (List.mem_cons_self top rest)
                  exact hct.trans (Nat.le_add_right _ _)
                · exact hc e (List.mem_cons_of_mem _ he)
      · rw [processLoop_not_due fuel now s top rest hq hcond]
        exact ⟨hs, by simp, by simp, by simp, by simp⟩

/-!
Lemmas about the entry flip performed by cancelOp.
-/

theorem flip_time (tid : Nat) (e : TimeEntry) :
    (if e.tid = tid then cancelEntry e else e).time = e.time := by
  split
  · exact cancelEntry_time e
  · rfl

theorem flip_tid (tid : Nat) (e : TimeEntry) :
    (if e.tid = tid then cancelEntry e else e).tid = e.tid := by
  split
  · exact cancelEntry_tid e
  · rfl

theorem flip_map_tid (tid : Nat) (q : List TimeEntry) :
    ((q.map (fun e => if e.tid = tid then cancelEntry e else e)).map
      TimeEntry.tid) = q.map TimeEntry.tid := by
  induction q with
  | nil => rfl
  | cons a q ih =>
    simp only [List.map_cons, ih, List.cons.injEq]
    exact ⟨flip_tid tid a, trivial⟩

theorem flip_map_sorted (tid : Nat) {q : List TimeEntry} (hs : QSorted q) :
    QSorted (q.map (fun e => if e.tid = tid then cancelEntry e else e)) := by
  refine List.Pairwise.map _ ?_ hs
  intro a b hab
  unfold byTime at hab ⊢
  rw [flip_time, flip_time]
  exact hab

theorem flip_map_length (tid : Nat) (q : List TimeEntry) :
    (q.map (fun e => if e.tid = tid then cancelEntry e else e)).length =
      q.length :=
  List.length_map q _

theorem flip_map_no_match (tid : Nat) (q : List TimeEntry)
    (h : ∀ e ∈ q, ¬ e.tid = tid) :
    q.map (fun e => if e.tid = tid then cancelEntry e else e) = q := by
  induction q with
  | nil => rfl
  | cons a q ih =>
    rw [List.map_cons, if_neg (h a (List.mem_cons_self a q)),
      ih (fun e he => h e (List.mem_cons_of_mem a he))]

theorem countCancelled_flip (tid : Nat) :
    ∀ q : List TimeEntry, (q.map TimeEntry.tid).Nodup →
      ∀ e₀ ∈ q, e₀.tid = tid → ¬ e₀.state = TimeState.cancelled →
      countCancelled
        (q.map (fun e => if e.tid = tid then cancelEntry e else e)) =
        countCancelled q + 1 := by
  intro q
  induction q with
  | nil =>
    intro _ e₀ h
    cases h
  | cons a q ih =>
    intro hnd e₀ he₀ htid hnc
    rw [List.map_cons] at hnd
    have hnd' := List.nodup_cons.mp hnd
    rcases List.mem_cons.mp he₀ with rfl | hmem
    · have htail : ∀ e ∈ q, ¬ e.tid = tid := by
        intro e he heq
        exact hnd'.1 (List.mem_map.mpr ⟨e, he, by rw [heq, htid]⟩)
      rw [List.map_cons, if_pos htid, flip_map_no_match tid q htail,
        countCancelled_cons, countCancelled_cons, cancelEntry_state]
      simp [hnc]
    · have hane : ¬ a.tid = tid := by
        intro heq
        exact hnd'.1 (List.mem_map.mpr ⟨e₀, hmem, by rw [htid, heq]⟩)
      rw [List.map_cons, if_neg hane, countCancelled_cons,
        countCancelled_cons, ih hnd'.2 e₀ hmem htid hnc]
      omega

theorem tidNodup_qPush (e : TimeEntry) (q : List TimeEntry)
    (hnd : (q.map TimeEntry.tid).Nodup)
    (hnotin : ¬ e.tid ∈ q.map TimeEntry.tid) :
    ((qPush e q).map TimeEntry.tid).Nodup := by
  rw [List.Perm.nodup_iff ((qPush_perm e q).map TimeEntry.tid)]
  rw [List.map_cons]
  exact List.nodup_cons.mpr ⟨hnotin, hnd⟩

/-!
Preservation of the scheduler well-formedness invariant.
-/

theorem WFT_initTimers : WFT initTimers := by
  refine ⟨List.sorted_nil, List.nodup_nil, ?_, rfl, ?_⟩
  · intro e he
    cases he
  · simp [countCancelled_nil, initTimers]

theorem processLoop_WFT (now : Nat) :
    ∀ (fuel : Nat) (s : TimersState), WFT s →
      WFT (processLoop fuel now s).state := by
  intro fuel
  induction fuel with
  | zero =>
    intro s hw
    rw [processLoop_zero]
    exact hw
  | succ fuel ih =>
    intro s hw
    obtain ⟨h1, h2, h3, h4, h5⟩ := hw
    cases hq : s.timeQueue with
    | nil =>
      rw [processLoop_nil fuel now s hq]
      exact ⟨h1, h2, h3, h4, h5⟩
    | cons top rest =>
      rw [hq] at h1 h2 h4 h5
      have h3' : ∀ e ∈ top :: rest, e.tid < s.nextTid := by
        intro e he
        exact h3 e (by rw [hq]; exact he)
      have hsrest : QSorted rest := (List.sorted_cons.mp h1).2
      have hndrest : (rest.map TimeEntry.tid).Nodup :=
        (List.nodup_cons.mp (by rw [List.map_cons] at h2; exact h2)).2
      have hnotin : ¬ top.tid ∈ rest.map TimeEntry.tid :=
        (List.nodup_cons.mp (by rw [List.map_cons] at h2; exact h2)).1
      by_cases hcond : top.time ≤ now ∨ top.state = TimeState.cancelled
      · by_cases hcan : top.state = TimeState.cancelled
        · rw [processLoop_pop_cancelled fuel now s top rest hq hcan]
          apply ih
          have hcount : countCancelled (top :: rest) =
              countCancelled rest + 1 := by
            rw [countCancelled_cons]
            simp [hcan]
          refine ⟨hsrest, hndrest, ?_, ?_, ?_⟩
          · intro e he
            exact h3' e (List.mem_cons_of_mem _ he)
          · show s.numCancelled - 1 = (countCancelled rest : Int)
            rw [h4, hcount]
            push_cast
            ring
          · show 2 * countCancelled rest ≤ rest.length
            rw [hcount] at h5
            simp only [List.length_cons] at h5
            omega
        · have hdue : top.time ≤ now := hcond.resolve_right hcan
          have hcount : countCancelled (top :: rest) = countCancelled rest := by
            rw [countCancelled_cons]
            simp [hcan]
          by_cases hec : (triggerTimer top).state = TimeState.cancelled
          · rw [processLoop_fire_cancel fuel now s top rest hq hdue hcan hec]
            simp only []
            apply ih
            set s1 : TimersState :=
              { s with timeQueue := rest,
                       pProcessingNode := some top.tid } with hs1
            have hnum1 : s1.numCancelled = (countCancelled rest : Int) := by
              show s.numCancelled = (countCancelled rest : Int)
              rw [h4, hcount]
            by_cases hp : (s1.numCancelled + 1) * 2 >
                (s1.timeQueue.length : Int)
            · rw [onCancel_of_gt s1 hp]
              have hq2 : (purgeCancelledTimes
                  { s1 with numCancelled := s1.numCancelled + 1 }).timeQueue =
                  rest.filter (fun e => ¬ e.state = TimeState.cancelled) := rfl
              refine ⟨?_, ?_, ?_, ?_, ?_⟩
              · show QSorted
                  (rest.filter (fun e => ¬ e.state = TimeState.cancelled))
                exact hsrest.filter _
              · show ((rest.filter
                  (fun e => ¬ e.state = TimeState.cancelled)).map
                    TimeEntry.tid).Nodup
                exact (hndrest.sublist
                  ((List.filter_sublist rest).map TimeEntry.tid))
              · intro e he
                have he' : e ∈ rest := List.mem_of_mem_filter he
                exact h3' e (List.mem_cons_of_mem _ he')
              · show (s1.numCancelled + 1) -
                  (countCancelled rest : Int) - 1 =
                  (countCancelled (rest.filter
                    (fun e => ¬ e.state = TimeState.cancelled)) : Int)
                rw [countCancelled_filter_out, hnum1]
                push_cast
                ring
              · show 2 * countCancelled (rest.filter
                  (fun e => ¬ e.state = TimeState.cancelled)) ≤
                  (rest.filter
                    (fun e => ¬ e.state = TimeState.cancelled)).length
                rw [countCancelled_filter_out]
                omega
            · rw [onCancel_of_le s1 hp]
              refine ⟨hsrest, hndrest, ?_, ?_, ?_⟩
              · intro e he
                exact h3' e (List.mem_cons_of_mem _ he)
              · show s1.numCancelled + 1 - 1 = (countCancelled rest : Int)
                rw [hnum1]
                ring
              · show 2 * countCancelled rest ≤ rest.length
                rw [hnum1] at hp
                have : (s1.timeQueue.length : Int) = (rest.length : Int) := rfl
                rw [this] at hp
                omega
          · rw [processLoop_fire_push fuel now s top rest hq hdue hcan hec]
            simp only []
            apply ih
            have hepush := triggerTimer_fire_push top hcan hec
            have htid : (triggerTimer top).tid = top.tid := by
              rw [hepush]
            refine ⟨hsrest.push _, ?_, ?_, ?_, ?_⟩
            · apply tidNodup_qPush _ _ hndrest
              rw [htid]
              exact hnotin
            · intro e he
              rcases mem_qPush.mp he with he | he
              · rw [he]
                show (triggerTimer top).tid < s.nextTid
                rw [htid]
                exact h3' top (List.mem_cons_self top rest)
              · exact h3' e (List.mem_cons_of_mem _ he)
            · show s.numCancelled =
                (countCancelled (qPush (triggerTimer top) rest) : Int)
              rw [countCancelled_qPush, countCancelled_cons, hepush]
              simp only []
              rw [h4, hcount]
              simp
            · show 2 * countCancelled (qPush (triggerTimer top) rest) ≤
                (qPush (triggerTimer top) rest).length
              rw [countCancelled_qPush, countCancelled_cons, length_qPush,
                hepush]
              simp only [List.length_cons] at h5
              rw [hcount] at h5
              simp
              omega
      · rw [processLoop_not_due fuel now s top rest hq hcond]
        refine ⟨?_, ?_, h3, ?_, ?_⟩ <;> rw [hq]
        · exact h1
        · exact h2
        · exact h4
        · exact h5

theorem addT_WFT (t i u : Nat) (s : TimersState) (hw : WFT s) :
    WFT (addT t i u s).1 := by
  obtain ⟨h1, h2, h3, h4, h5⟩ := hw
  have hfresh : ¬ s.nextTid ∈ s.timeQueue.map TimeEntry.tid := by
    intro h
    rcases List.mem_map.mp h with ⟨e, he, heq⟩
    exact absurd heq (Nat.ne_of_lt (h3 e he))
  refine ⟨h1.push _, ?_, ?_, ?_, ?_⟩
  · exact tidNodup_qPush _ _ h2 hfresh
  · intro e he
    show e.tid < s.nextTid + 1
    rcases mem_qPush.mp he with he | he
    · rw [he]
      exact Nat.lt_succ_self _
    · exact Nat.lt_succ_of_lt (h3 e he)
  · show s.numCancelled = (countCancelled (qPush _ s.timeQueue) : Int)
    rw [countCancelled_qPush, countCancelled_cons]
    simpa using h4
  · show 2 * countCancelled (qPush _ s.timeQueue) ≤
      (qPush _ s.timeQueue).length
    rw [countCancelled_qPush, countCancelled_cons, length_qPush]
    simp
    omega

theorem cancelOp_WFT (tid : Nat) (s : TimersState) (hw : WFT s) :
    WFT (cancelOp tid s) := by
  obtain ⟨h1, h2, h3, h4, h5⟩ := hw
  unfold cancelOp
  split
  · rename_i hex
    obtain ⟨e₀, he₀, htid, hnc⟩ := hex
    set q2 : List TimeEntry := s.timeQueue.map
      (fun e => if e.tid = tid then cancelEntry e else e) with hq2
    have hcount2 : countCancelled q2 = countCancelled s.timeQueue + 1 :=
      countCancelled_flip tid s.timeQueue h2 e₀ he₀ htid hnc
    have hlen2 : q2.length = s.timeQueue.length := flip_map_length tid _
    have hsor2 : QSorted q2 := flip_map_sorted tid h1
    have hnd2 : (q2.map TimeEntry.tid).Nodup := by
      rw [hq2, flip_map_tid]
      exact h2
    have hb2 : ∀ e ∈ q2, e.tid < s.nextTid := by
      intro e he
      rcases List.mem_map.mp he with ⟨e1, he1, heq⟩
      rw [← heq, flip_tid]
      exact h3 e1 he1
    set s2 : TimersState := { s with timeQueue := q2 } with hs2
    by_cases hp : (s2.numCancelled + 1) * 2 > (s2.timeQueue.length : Int)
    · rw [onCancel_of_gt s2 hp]
      refine ⟨?_, ?_, ?_, ?_, ?_⟩
      · show QSorted (q2.filter (fun e => ¬ e.state = TimeState.cancelled))
        exact hsor2.filter _
      · exact hnd2.sublist ((List.filter_sublist q2).map TimeEntry.tid)
      · intro e he
        exact hb2 e (List.mem_of_mem_filter he)
      · show s.numCancelled + 1 - (countCancelled q2 : Int) =
          (countCancelled (q2.filter
            (fun e => ¬ e.state = TimeState.cancelled)) : Int)
        rw [countCancelled_filter_out, hcount2, h4]
        push_cast
        ring
      · show 2 * countCancelled (q2.filter
          (fun e => ¬ e.state = TimeState.cancelled)) ≤ _
        rw [countCancelled_filter_out]
        omega
    · rw [onCancel_of_le s2 hp]
      refine ⟨hsor2, hnd2, hb2, ?_, ?_⟩
      · show s.numCancelled + 1 = (countCancelled q2 : Int)
        rw [hcount2, h4]
        push_cast
        ring
      · show 2 * countCancelled q2 ≤ q2.length
        have hp' : (s.numCancelled + 1) * 2 ≤ (q2.length : Int) := by
          have e1 : s2.numCancelled = s.numCancelled := rfl
          have e2 : s2.timeQueue.length = q2.length := rfl
          omega
        rw [h4] at hp'
        rw [hcount2, hlen2]
        rw [hlen2] at hp'
        omega
  · exact ⟨h1, h2, h3, h4, h5⟩

theorem process_WFT (now : Nat) (s : TimersState) (hw : WFT s) :
    WFT (process now s).state := by
  have h := processLoop_WFT now (queueMeasure now s.timeQueue + 1) s hw
  exact ⟨h.1, h.2.1, h.2.2.1, h.2.2.2.1, h.2.2.2.2⟩

theorem clearT_WFT (b : Bool) (s : TimersState) :
    WFT (clearT b s) := by
  refine ⟨List.sorted_nil, List.nodup_nil, ?_, rfl, ?_⟩
  · intro e he
    cases he
  · exact Nat.le_refl 0

theorem applyOp_WFT (s : TimersState) (op : Op) (hw : WFT s) :
    WFT (applyOp s op) := by
  cases op with
  | add t i u => exact addT_WFT t i u s hw
  | cancel tid => exact cancelOp_WFT tid s hw
  | process now => exact process_WFT now s hw
  | clear b => exact clearT_WFT b s

theorem runOps_WFT (ops : List Op) : WFT (runOps ops) := by
  have hgen : ∀ (l : List Op) (s : TimersState), WFT s →
      WFT (l.foldl applyOp s) := by
    intro l
    induction l with
    | nil => intro s h; exact h
    | cons op rest ih =>
      intro s h
      exact ih _ (applyOp_WFT s op h)
  exact hgen ops initTimers WFT_initTimers

/-!
Sufficiency of the iteration bound used by process: the loop variant
strictly decreases at every iteration, so at the returned state the
while-condition of TimersT::process is false.
-/

theorem queueMeasure_cons (now : Nat) (e : TimeEntry) (q : List TimeEntry) :
    queueMeasure now (e :: q) = entryMeasure now e + queueMeasure now q := by
  simp [queueMeasure]

theorem queueMeasure_qPush (now : Nat) (e : TimeEntry) (q : List TimeEntry) :
    queueMeasure now (qPush e q) = entryMeasure now e + queueMeasure now q := by
  unfold queueMeasure
  rw [List.Perm.sum_eq ((qPush_perm e q).map (entryMeasure now))]
  simp

theorem queueMeasure_filter_le (now : Nat) (p : TimeEntry → Bool)
    (q : List TimeEntry) :
    queueMeasure now (q.filter p) ≤ queueMeasure now q := by
  induction q with
  | nil => exact Nat.le_refl 0
  | cons e q ih =>
    rw [List.filter_cons]
    by_cases h : p e
    · rw [if_pos h, queueMeasure_cons, queueMeasure_cons]
      omega
    · rw [if_neg h, queueMeasure_cons]
      omega

theorem entryMeasure_cancelled (now : Nat) (e : TimeEntry)
    (h : e.state = TimeState.cancelled) : entryMeasure now e = 1 := by
  unfold entryMeasure
  rw [if_pos h]

theorem entryMeasure_due (now : Nat) (e : TimeEntry)
    (h1 : ¬ e.state = TimeState.cancelled) (h2 : e.time ≤ now) :
    entryMeasure now e = (now - e.time) / max e.interval 1 + 2 := by
  unfold entryMeasure
  rw [if_neg h1, if_pos h2]

theorem entryMeasure_late (now : Nat) (e : TimeEntry)
    (h1 : ¬ e.state = TimeState.cancelled) (h2 : ¬ e.time ≤ now) :
    entryMeasure now e = 0 := by
  unfold entryMeasure
  rw [if_neg h1, if_neg h2]

theorem entryMeasure_fire_push_lt (now : Nat) (top : TimeEntry)
    (hcan : ¬ top.state = TimeState.cancelled)
    (hdue : top.time ≤ now)
    (hec : ¬ (triggerTimer top).state = TimeState.cancelled) :
    entryMeasure now (triggerTimer top) < entryMeasure now top := by
  have hepush := triggerTimer_fire_push top hcan hec
  have hi : ¬ top.interval = 0 := by
    intro h0
    apply hec
    rw [(triggerTimer_spec top hcan).1 h0]
  have hmax : max top.interval 1 = top.interval :=
    Nat.max_eq_left (by omega)
  rw [entryMeasure_due now top hcan hdue, hmax]
  by_cases hlate : (triggerTimer top).time ≤ now
  · have hcan2 : ¬ (triggerTimer top).state = TimeState.cancelled := hec
    rw [entryMeasure_due now _ hcan2 hlate]
    have htime : (triggerTimer top).time = top.time + top.interval := by
      rw [hepush]
    have hival : (triggerTimer top).interval = top.interval := by
      rw [hepush]
    rw [htime, hival, hmax]
    have hle : top.interval ≤ now - top.time := by
      rw [htime] at hlate
      omega
    have hdiv := Nat.div_eq_sub_div (by omega : 0 < top.interval) hle
    have hsub : now - (top.time + top.interval) =
        now - top.time - top.interval := by
      omega
    rw [hsub]
    omega
  · rw [entryMeasure_late now _ hec hlate]
    exact Nat.succ_pos _

theorem processLoop_complete (now : Nat) :
    ∀ (fuel : Nat) (s : TimersState),
      queueMeasure now s.timeQueue < fuel →
      dueOrCancelled now (processLoop fuel now s).state.timeQueue = false := by
  intro fuel
  induction fuel with
  | zero =>
    intro s hm
    exact absurd hm (Nat.not_lt_zero _)
  | succ fuel ih =>
    intro s hm
    cases hq : s.timeQueue with
    | nil =>
      rw [processLoop_nil fuel now s hq]
      show dueOrCancelled now s.timeQueue = false
      rw [hq]
      rfl
    | cons top rest =>
      rw [hq, queueMeasure_cons] at hm
      by_cases hcond : top.time ≤ now ∨ top.state = TimeState.cancelled
      · by_cases hcan : top.state = TimeState.cancelled
        · rw [processLoop_pop_cancelled fuel now s top rest hq hcan]
          apply ih
          show queueMeasure now rest < fuel
          rw [entryMeasure_cancelled now top hcan] at hm
          omega
        · have hdue : top.time ≤ now := hcond.resolve_right hcan
          have hm2 : 2 ≤ entryMeasure now top := by
            rw [entryMeasure_due now top hcan hdue]
            exact Nat.le_add_left 2 _
          by_cases hec : (triggerTimer top).state = TimeState.cancelled
          · rw [processLoop_fire_cancel fuel now s top rest hq hdue hcan hec]
            simp only []
            apply ih
            show queueMeasure now (onCancel
              { s with timeQueue := rest,
                       pProcessingNode := some top.tid }).timeQueue < fuel
            rcases onCancel_queue_cases
              { s with timeQueue := rest,
                       pProcessingNode := some top.tid } with h | h <;>
              rw [h]
            · show queueMeasure now rest < fuel
              omega
            · show queueMeasure now (rest.filter _) < fuel
              have := queueMeasure_filter_le now
                (fun e => ¬ e.state = TimeState.cancelled) rest
              omega
          · rw [processLoop_fire_push fuel now s top rest hq hdue hcan hec]
            simp only []
            apply ih
            show queueMeasure now (qPush (triggerTimer top) rest) < fuel
            rw [queueMeasure_qPush]
            have := entryMeasure_fire_push_lt now top hcan hdue hec
            omega
      · rw [processLoop_not_due fuel now s top rest hq hcond]
        show dueOrCancelled now s.timeQueue = false
        rw [hq]
        unfold dueOrCancelled
        push_neg at hcond
        simp [hcond.1, hcond.2]

/-- The iteration bound used by the process wrapper is sufficient: at the
state process returns, the while-condition of TimersT::process (queue
top due or cancelled) is false, so the bounded loop computes the same
result as the unbounded C++ loop. -/
theorem process_runs_to_completion (now : Nat) (s : TimersState) :
    dueOrCancelled now (process now s).state.timeQueue = false :=
  processLoop_complete now (queueMeasure now s.timeQueue + 1) s
    (Nat.lt_succ_self _)

/-!
Claim C3: one-shot and recurring firing behaviour.
-/

/-- C3: a timer entry with interval 0 fires exactly once — triggerTimer
transitions it to Cancelled immediately after that single firing, with
its trigger time unchanged, and a cancelled entry never fires again —
while a pending timer with interval i greater than 0 advances its trigger
timestamp by exactly i on each firing: after k firings it is still
pending with trigger time t + k * i. -/
theorem c3_one_shot_once_recurring_arithmetic (e : TimeEntry)
    (hp : e.state = TimeState.pending) :
    (e.interval = 0 →
      triggerTimer e =
        { e with state := TimeState.cancelled, handler := false } ∧
      triggerTimer (triggerTimer e) = triggerTimer e) ∧
    (0 < e.interval → ∀ k : Nat,
      triggerTimer^[k] e = { e with time := e.time + k * e.interval }) := by
  have hnc : ¬ e.state = TimeState.cancelled := by
    rw [hp]; intro h; cases h
  constructor
  · intro h0
    have h1 := (triggerTimer_spec e hnc).1 h0
    refine ⟨h1, ?_⟩
    rw [h1, triggerTimer_cancelled _ rfl]
  · intro hi k
    induction k with
    | zero =>
      simp
    | succ n ih =>
      rw [Function.iterate_succ_apply', ih]
      have hnc2 : ¬ ({ e with time := e.time + n * e.interval } :
          TimeEntry).state = TimeState.cancelled := by
        simpa using hnc
      have h0 : ¬ ({ e with time := e.time + n * e.interval } :
          TimeEntry).interval = 0 := by
        simp only []
        omega
      have h2 := (triggerTimer_spec _ hnc2).2 h0
      rw [h2]
      simp [hp]
      ring

/-- Witness for C3 at concrete entries: a one-shot at time 100 is
cancelled by its single firing, and a recurring timer at 50 with
interval 10 sits at 80 after three firings. -/
theorem c3_one_shot_once_recurring_arithmetic_witness :
    triggerTimer ⟨0, 100, 0, 7, true, TimeState.pending⟩ =
      ⟨0, 100, 0, 7, false, TimeState.cancelled⟩ ∧
    triggerTimer^[3] ⟨1, 50, 10, 7, true, TimeState.pending⟩ =
      ⟨1, 80, 10, 7, true, TimeState.pending⟩ := by
  constructor
  · exact ((c3_one_shot_once_recurring_arithmetic
      ⟨0, 100, 0, 7, true, TimeState.pending⟩ rfl).1 rfl).1
  · have h := (c3_one_shot_once_recurring_arithmetic
      ⟨1, 50, 10, 7, true, TimeState.pending⟩ rfl).2 (by decide) 3
    simpa using h

/-!
Claim C6: getTimerInfo is a pure snapshot.
-/

/-- C6: getTimerInfo on the entry a handle refers to returns false with
no outputs written when the entry is Cancelled (a defined non-error
outcome), and otherwise returns true together with the entry's trigger
time, interval and user-data pointer; being a pure function of the entry,
it leaves the scheduler state unchanged in both cases. -/
theorem c6_getTimerInfo_snapshot (e : TimeEntry) :
    (e.state = TimeState.cancelled → getTimerInfo e = none) ∧
    (¬ e.state = TimeState.cancelled →
      getTimerInfo e = some (e.time, e.interval, e.user)) := by
  constructor
  · intro h
    simp [getTimerInfo, h]
  · intro h
    simp [getTimerInfo, h]

/-- Witness for C6: a cancelled entry yields no snapshot; a pending entry
yields its time, interval and user data. -/
theorem c6_getTimerInfo_snapshot_witness :
    getTimerInfo ⟨0, 10, 3, 7, false, TimeState.cancelled⟩ = none ∧
    getTimerInfo ⟨1, 20, 5, 9, true, TimeState.pending⟩ = some (20, 5, 9) := by
  constructor
  · exact (c6_getTimerInfo_snapshot ⟨0, 10, 3, 7, false,
      TimeState.cancelled⟩).1 rfl
  · exact (c6_getTimerInfo_snapshot ⟨1, 20, 5, 9, true,
      TimeState.pending⟩).2 (by decide)

/-!
Claim C8: RefCountedPtr handle discipline.
-/

/-- C8: constructing a RefCountedPtr from a raw owned pointer increments
the object's reference count by one, constructing (copying) from another
set handle increments it again, and destroying a set handle decrements it
by one. -/
theorem c8_refCountedPtr_counts (o : RCObject) (h : RefCountedPtr)
    (hp : h.ptr = true) :
    (rcptrCtorRaw true o).2.refCount = o.refCount + 1 ∧
    (rcptrCtorCopy h o).2.refCount = o.refCount + 1 ∧
    (rcptrDtor h o).refCount = o.refCount - 1 := by
  refine ⟨rfl, ?_, ?_⟩
  · simp [rcptrCtorCopy, hp, addRef, incRef]
  · simp only [rcptrDtor, hp, if_true]
    unfold decRef
    by_cases hc : o.refCount - 1 ≤ 0
    · simp [hc, onRefOver]
    · simp [hc]

/-- Witness for C8 at a concrete object with count 5 and a set handle. -/
theorem c8_refCountedPtr_counts_witness :
    (rcptrCtorRaw true ⟨5, 0⟩).2.refCount = 6 ∧
    (rcptrCtorCopy ⟨true⟩ ⟨5, 0⟩).2.refCount = 6 ∧
    (rcptrDtor ⟨true⟩ ⟨5, 0⟩).refCount = 4 := by
  exact c8_refCountedPtr_counts ⟨5, 0⟩ ⟨true⟩ rfl

/-!
Claim C10: null-handle asymmetry between legal and getTimerInfo.
-/

/-- C10: for an unset TimerHandle, legal returns false through its
explicit null guard in every scheduler state, whereas getTimerInfo has no
guard and dereferences the null entry pointer — modelled as the fault
outcome — so getTimerInfo is well-defined (and agrees with the per-entry
snapshot) only where the handle is set. -/
theorem c10_null_handle_asymmetry :
    (∀ s : TimersState, legal s none = false) ∧
    getTimerInfoH none = Except.error () ∧
    (∀ e : TimeEntry, getTimerInfoH (some e) = Except.ok (getTimerInfo e)) := by
  refine ⟨fun s => rfl, rfl, fun e => rfl⟩

/-!
Claim C2: the concrete two-timer scenario.
-/

/-- Counterexample to C2 as stated: in the spec scenario (A at 100 with
interval 0, B at 50 with interval 10), process(60) does not fire B
exactly once with its trigger time becoming 60 — B refires within the
same call once its advanced time 60 is still at most now, so process(60)
fires twice (at 50 and at 60), returns 2, and leaves B at 70. -/
theorem c2_counterexample :
    scenario60.fired = [(1, 50), (1, 60)] ∧
    scenario60.numFired = 2 ∧
    scenario60.state.timeQueue.map (fun e => (e.tid, e.time)) =
      [(1, 70), (0, 100)] ∧
    ¬ scenario60.numFired = 1 := by
  decide

/-- C2 amended: process(60) fires B twice (trigger time reaching 70) and
returns 2; process(105) then fires B four more times (at 70, 80, 90, 100,
its trigger time reaching 110) and fires A exactly once (at 100, after
which A is cancelled and freed), returning 5; afterwards legal(A) is
false and legal(B) is true. -/
theorem c2_amended_scenario :
    scenario60.numFired = 2 ∧
    scenario60.state.timeQueue.map (fun e => (e.tid, e.time)) =
      [(1, 70), (0, 100)] ∧
    scenario105.fired = [(1, 70), (1, 80), (1, 90), (1, 100), (0, 100)] ∧
    scenario105.numFired = 5 ∧
    (scenario105.fired.filter (fun ev => ev.1 = 1)).length = 4 ∧
    (scenario105.fired.filter (fun ev => ev.1 = 0)).length = 1 ∧
    scenario105.state.timeQueue.map (fun e => (e.tid, e.time)) = [(1, 110)] ∧
    legal scenario105.state (some 0) = false ∧
    legal scenario105.state (some 1) = true := by
  decide

/-!
Claim C5 counterexample: nextExp ignores cancellation.
-/

/-- Counterexample to C5 as stated: in the reachable state holding a
cancelled entry at trigger time 10 ahead of a pending entry at 100,
nextExp(5) returns 5 — the wait until the cancelled heap top — not the
wait 95 until the earliest pending (non-cancelled) trigger. -/
theorem c5_counterexample :
    scenarioCancelledTop.timeQueue.map
      (fun e => (e.time, decide (e.state = TimeState.cancelled))) =
      [(10, true), (100, false)] ∧
    nextExp 5 scenarioCancelledTop = 5 ∧
    ¬ nextExp 5 scenarioCancelledTop = 100 - 5 := by
  decide

/-!
Claim C7 counterexample: the allocation burst overshoots small ceilings.
-/

/-- Counterexample to C7 as stated: on a pool constructed with ceiling 1,
a single createObject-then-reclaimObject cycle leaves 15 idle objects —
the allocation burst of 16 minus the one handed out — which exceeds
max() = 1 and persists after the cycle, so the idle count is not bounded
by the ceiling and the max()+1-cycle property fails at its first cycle. -/
theorem c7_counterexample :
    (runPoolOps 1 [PoolOp.create, PoolOp.reclaim]).1.objCount = 15 ∧
    (runPoolOps 1 [PoolOp.create, PoolOp.reclaim]).1.maxSize = 1 ∧
    ¬ (runPoolOps 1 [PoolOp.create, PoolOp.reclaim]).1.objCount ≤
        (runPoolOps 1 [PoolOp.create, PoolOp.reclaim]).1.maxSize := by
  decide

/-!
Claim C9 counterexample: the hook can run more than once, or never.
-/

/-- Counterexample to C9 as stated: the sequence inc, dec, inc, dec has
as many increments as decrements and its running count never goes
negative, yet the destruction hook runs twice (once at each return to
zero); the empty sequence also satisfies the hypotheses and runs the
hook zero times. -/
theorem c9_counterexample :
    (netZero rcZigZag ∧
      (∀ n ≤ rcZigZag.length, 0 ≤ (runRC (rcZigZag.take n)).refCount) ∧
      (runRC rcZigZag).hookCalls = 2 ∧
      ¬ (runRC rcZigZag).hookCalls = 1) ∧
    (netZero ([] : List RCOp) ∧ (runRC ([] : List RCOp)).hookCalls = 0) := by
  unfold netZero
  decide

/-!
Claim C5 amended: nextExp measures the wait until the heap top.
-/

/-- C5 amended: nextExp(now) returns the time remaining until the
earliest entry resident in the heap — the heap top, whether pending or
lazily cancelled — and returns 0 when the heap is empty or that earliest
trigger is already due (at or before now). -/
theorem c5_amended_nextExp_heap_top (s : TimersState) (now : Nat)
    (hs : QSorted s.timeQueue) :
    (s.timeQueue = [] → nextExp now s = 0) ∧
    (∀ top rest, s.timeQueue = top :: rest →
      (∀ e ∈ s.timeQueue, top.time ≤ e.time) ∧
      (top.time ≤ now → nextExp now s = 0) ∧
      (now ≤ top.time → nextExp now s = top.time - now)) := by
  constructor
  · intro h
    simp [nextExp, h]
  · intro top rest hq
    refine ⟨?_, ?_, ?_⟩
    · intro e he
      rw [hq] at he hs
      rcases List.mem_cons.mp he with h | h
      · rw [h]
      · exact List.rel_of_sorted_cons hs e h
    · intro hle
      simp only [nextExp, hq]
      split
      · rfl
      · omega
    · intro hge
      simp only [nextExp, hq]
      split
      · omega
      · rfl

/-- Witness for C5 amended, at the reachable state with a cancelled
entry (time 10) at the top ahead of a pending entry (time 100): every
resident entry is at or after 10, and nextExp(5) is 10 - 5 = 5. -/
theorem c5_amended_nextExp_heap_top_witness :
    (∀ e ∈ scenarioCancelledTop.timeQueue, 10 ≤ e.time) ∧
    nextExp 5 scenarioCancelledTop = 10 - 5 := by
  have h := c5_amended_nextExp_heap_top scenarioCancelledTop 5 (by decide)
  have h2 := h.2 ⟨0, 10, 0, 0, false, TimeState.cancelled⟩
    [⟨1, 100, 0, 0, true, TimeState.pending⟩] (by decide)
  exact ⟨h2.1, h2.2.2 (by decide)⟩

/-!
Claim C7 amended: pool ceiling up to the allocation-burst remainder.
-/

theorem assignObjs_fields (n : Nat) (p : PoolState) :
    (assignObjs n p).objects.length = p.objects.length + n ∧
    (assignObjs n p).objCount = p.objCount + n ∧
    (assignObjs n p).maxSize = p.maxSize ∧
    (assignObjs n p).isDestroyed = p.isDestroyed := by
  simp [assignObjs]

theorem popFront_spec (p : PoolState)
    (hlen : p.objects.length = p.objCount) :
    (popFront p).1.objects.length = (popFront p).1.objCount ∧
    (popFront p).1.maxSize = p.maxSize ∧
    (popFront p).1.isDestroyed = p.isDestroyed ∧
    (popFront p).1.objCount = p.objCount - 1 := by
  cases ho : p.objects with
  | nil =>
    rw [ho] at hlen
    simp only [List.length_nil] at hlen
    simp [popFront, ho, ← hlen]
  | cons o rest =>
    rw [ho] at hlen
    simp only [List.length_cons] at hlen
    simp [popFront, ho]
    omega

theorem createObject_spec (p : PoolState)
    (hlen : p.objects.length = p.objCount) :
    (createObject p).1.objects.length = (createObject p).1.objCount ∧
    (createObject p).1.maxSize = p.maxSize ∧
    (createObject p).1.isDestroyed = p.isDestroyed ∧
    ((createObject p).1.objCount = p.objCount - 1 ∨
      (createObject p).1.objCount = OBJECT_POOL_INIT_SIZE - 1) := by
  unfold createObject
  by_cases hc : p.objCount > 0
  · rw [if_pos hc]
    have h := popFront_spec p hlen
    exact ⟨h.1, h.2.1, h.2.2.1, Or.inl h.2.2.2⟩
  · rw [if_neg hc]
    have ha := assignObjs_fields OBJECT_POOL_INIT_SIZE p
    have h := popFront_spec (assignObjs OBJECT_POOL_INIT_SIZE p)
      (by rw [ha.1, ha.2.1, hlen])
    refine ⟨h.1, by rw [h.2.1, ha.2.2.1], by rw [h.2.2.1, ha.2.2.2], Or.inr ?_⟩
    rw [h.2.2.2, ha.2.1]
    omega

theorem applyPoolOp_create_fst (st : PoolState × List Nat) :
    (applyPoolOp st PoolOp.create).1 = (createObject st.1).1 := by
  unfold applyPoolOp
  rcases hc : createObject st.1 with ⟨p1, o?⟩
  cases o? <;> simp

theorem poolInv_step (m : Nat) (st : PoolState × List Nat) (op : PoolOp)
    (h : PoolInv m st) : PoolInv m (applyPoolOp st op) := by
  obtain ⟨hlen, hmax, hdes, hbound⟩ := h
  cases op with
  | create =>
    have hs := createObject_spec st.1 hlen
    have hf := applyPoolOp_create_fst st
    refine ⟨?_, ?_, ?_, ?_⟩ <;> rw [hf]
    · exact hs.1
    · rw [hs.2.1, hmax]
    · rw [hs.2.2.1, hdes]
    · rcases hs.2.2.2 with h1 | h1 <;> rw [h1, hs.2.1] <;> omega
  | reclaim =>
    unfold applyPoolOp
    cases hout : st.2 with
    | nil =>
      exact ⟨hlen, hmax, hdes, hbound⟩
    | cons o rest =>
      simp only []
      unfold reclaimObject
      by_cases hfull : st.1.objCount ≥ st.1.maxSize ∨ st.1.isDestroyed
      · simp only [hfull, if_true]
        exact ⟨hlen, hmax, hdes, hbound⟩
      · simp only [hfull, if_false]
        refine ⟨?_, hmax, hdes, ?_⟩
        · simp [hlen]
        · simp only [not_or] at hfull
          have := hfull.1
          simp only []
          omega

theorem runPoolOps_inv (m : Nat) (ops : List PoolOp) :
    PoolInv m (runPoolOps m ops) := by
  have hgen : ∀ (l : List PoolOp) (st : PoolState × List Nat),
      PoolInv m st → PoolInv m (l.foldl applyPoolOp st) := by
    intro l
    induction l with
    | nil => intro st h; exact h
    | cons op rest ih =>
      intro st h
      exact ih _ (poolInv_step m st op h)
  refine hgen ops (initPool m, []) ?_
  unfold PoolInv initPool
  simp

/-- C7 amended: a reclaimed object is appended to the idle list exactly
when the idle count is below max and the pool is not destroyed, and is
otherwise deleted with the lifetime allocation counter decremented; but
the idle count is only bounded by the larger of max() and
OBJECT_POOL_INIT_SIZE - 1 = 15: an allocation burst on an empty pool
leaves 15 idle objects regardless of the ceiling.  Whenever max() is at
least 15 — in particular at the default ceiling 256 — the idle count
stays at or below max() after every createObject/reclaimObject sequence,
which restores the claim's max()+1 round-trip property for such pools. -/
theorem c7_amended_idle_ceiling (m : Nat) (ops : List PoolOp) :
    (runPoolOps m ops).1.objCount ≤
      max (runPoolOps m ops).1.maxSize (OBJECT_POOL_INIT_SIZE - 1) ∧
    (OBJECT_POOL_INIT_SIZE - 1 ≤ m →
      (runPoolOps m ops).1.objCount ≤ (runPoolOps m ops).1.maxSize) ∧
    (∀ p : PoolState, ∀ o : Nat,
      (p.objCount < p.maxSize → p.isDestroyed = false →
        reclaimObject p o =
          { p with objects := p.objects ++ [o], objCount := p.objCount + 1 }) ∧
      (p.objCount ≥ p.maxSize ∨ p.isDestroyed = true →
        reclaimObject p o = { p with totalAllocs := p.totalAllocs - 1 })) := by
  have hinv := runPoolOps_inv m ops
  obtain ⟨hlen, hmax, hdes, hbound⟩ := hinv
  refine ⟨hbound, ?_, ?_⟩
  · intro hm
    rw [hmax] at hbound ⊢
    have : (initPool m).maxSize = if m = 0 then 1 else m := rfl
    have h16 : OBJECT_POOL_INIT_SIZE = 16 := rfl
    rw [this] at hbound ⊢
    split at hbound <;> rename_i hm0
    · omega
    · split
      · omega
      · omega
  · intro p o
    constructor
    · intro h1 h2
      unfold reclaimObject
      rw [if_neg]
      push_neg
      exact ⟨by omega, by rw [h2]; intro h; cases h⟩
    · intro h1
      unfold reclaimObject
      rw [if_pos]
      rcases h1 with h1 | h1
      · exact Or.inl h1
      · exact Or.inr (by rw [h1])

/-- Witness for C7 amended at a pool with ceiling 20: one
create-then-reclaim cycle keeps the idle count at or below 20, and
reclaiming into a non-full live pool appends the object. -/
theorem c7_amended_idle_ceiling_witness :
    (runPoolOps 20 [PoolOp.create, PoolOp.reclaim]).1.objCount ≤ 20 ∧
    reclaimObject ⟨[], 20, false, 1, 0, 1⟩ 5 = ⟨[5], 20, false, 1, 1, 1⟩ := by
  constructor
  · have h := (c7_amended_idle_ceiling 20
      [PoolOp.create, PoolOp.reclaim]).2.1 (by decide)
    exact h.trans (by decide)
  · exact ((c7_amended_idle_ceiling 20 []).2.2
      ⟨[], 20, false, 1, 0, 1⟩ 5).1 (by decide) rfl

/-!
Claim C9 amended: when the hook fires.
-/

theorem applyRC_refCount (o : RCObject) (op : RCOp) :
    (applyRC o op).refCount =
      o.refCount + (if op = RCOp.inc then 1 else -1) := by
  cases op with
  | inc => simp [applyRC, incRef]
  | dec =>
    simp only [applyRC, decRef]
    by_cases hc : o.refCount - 1 ≤ 0
    · simp [hc, onRefOver]
      omega
    · simp [hc]
      omega

theorem applyRC_hookCalls (o : RCObject) (op : RCOp) :
    (applyRC o op).hookCalls =
      o.hookCalls + (if op = RCOp.dec ∧ o.refCount - 1 ≤ 0 then 1 else 0) := by
  cases op with
  | inc => simp [applyRC, incRef]
  | dec =>
    simp only [applyRC, decRef]
    by_cases hc : o.refCount - 1 ≤ 0
    · simp [hc, onRefOver]
    · simp [hc]

theorem foldl_applyRC_refCount (l : List RCOp) :
    ∀ o : RCObject, (l.foldl applyRC o).refCount =
      o.refCount + (l.count RCOp.inc : Int) - (l.count RCOp.dec : Int) := by
  induction l with
  | nil => intro o; simp
  | cons op rest ih =>
    intro o
    rw [List.foldl_cons, ih (applyRC o op), applyRC_refCount]
    cases op with
    | inc =>
      simp [List.count_cons]
      omega
    | dec =>
      simp [List.count_cons]
      omega

theorem runRC_refCount_of_netZero (ops : List RCOp) (h : netZero ops) :
    (runRC ops).refCount = 0 := by
  unfold netZero at h
  rw [runRC, foldl_applyRC_refCount]
  simp [freshRC, h]

theorem runRC_take_succ (ops : List RCOp) (n : Nat) (h : n < ops.length) :
    runRC (ops.take (n + 1)) =
      applyRC (runRC (ops.take n)) (ops.get ⟨n, h⟩) := by
  unfold runRC
  rw [List.take_succ, List.getElem?_eq_getElem h]
  simp only [Option.toList_some, List.foldl_append, List.foldl_cons,
    List.foldl_nil, List.get_eq_getElem]

/-- C9 amended: the destruction hook onRefOver fires exactly at a decRef
that brings the count to zero, so for every non-empty sequence of
incRef/decRef calls with as many increments as decrements, a running
count that never goes negative, and a count that returns to zero only at
the end of the sequence (operations after the destroying decRef would
act on a freed object), the hook is invoked exactly once — at the final
decRef — and never before. -/
theorem c9_amended_hook_fires_at_final_zero (ops : List RCOp)
    (hne : ¬ ops = [])
    (hnet : netZero ops)
    (hnonneg : ∀ n, n ≤ ops.length → 0 ≤ (runRC (ops.take n)).refCount)
    (hpos : ∀ n, 0 < n → n < ops.length → 0 < (runRC (ops.take n)).refCount) :
    (runRC ops).hookCalls = 1 ∧
    (∀ n, n < ops.length → (runRC (ops.take n)).hookCalls = 0) := by
  have hlen : 0 < ops.length := List.length_pos.mpr hne
  have hzero : ∀ n, n < ops.length → (runRC (ops.take n)).hookCalls = 0 := by
    intro n
    induction n with
    | zero =>
      intro _
      simp [runRC, freshRC]
    | succ k ih =>
      intro hk
      have hk1 : k < ops.length := by omega
      rw [runRC_take_succ ops k hk1, applyRC_hookCalls, ih hk1]
      rw [if_neg]
      intro ⟨hdec, hle⟩
      have hcount := hpos (k + 1) (by omega) hk
      rw [runRC_take_succ ops k hk1, applyRC_refCount, if_neg] at hcount
      · omega
      · rw [hdec]
        intro heq
        cases heq
  refine ⟨?_, hzero⟩
  obtain ⟨len1, hlen1⟩ : ∃ m, ops.length = m + 1 :=
    ⟨ops.length - 1, by omega⟩
  have htake : ops.take (len1 + 1) = ops := by
    rw [← hlen1]
    exact List.take_length ops
  have hl1 : len1 < ops.length := by omega
  have hfinal : (runRC ops).refCount = 0 := runRC_refCount_of_netZero ops hnet
  have hstep := runRC_take_succ ops len1 hl1
  rw [htake] at hstep
  have hprev0 : 0 ≤ (runRC (ops.take len1)).refCount :=
    hnonneg len1 (by omega)
  have hdec : ops.get ⟨len1, hl1⟩ = RCOp.dec := by
    cases hget : ops.get ⟨len1, hl1⟩ with
    | inc =>
      rw [hstep, applyRC_refCount, hget, if_pos rfl] at hfinal
      omega
    | dec => rfl
  have hhook : (runRC (ops.take len1)).hookCalls = 0 := hzero len1 hl1
  rw [hstep, applyRC_hookCalls, hhook, hdec]
  rw [hstep, applyRC_refCount, hdec, if_neg (by intro h; cases h)] at hfinal
  rw [if_pos ⟨rfl, by omega⟩]

/-- Witness for C9 amended at the sequence inc, dec: hook once at the
final decRef, never before it. -/
theorem c9_amended_hook_fires_at_final_zero_witness :
    (runRC [RCOp.inc, RCOp.dec]).hookCalls = 1 ∧
    (∀ n, n < 2 → (runRC ([RCOp.inc, RCOp.dec].take n)).hookCalls = 0) := by
  exact c9_amended_hook_fires_at_final_zero [RCOp.inc, RCOp.dec]
    (by decide) (by unfold netZero; decide) (by decide)
    (by
      intro n h1 h2
      have hn : n = 1 := by
        simp only [List.length_cons, List.length_nil] at h2
        omega
      subst hn
      decide)

/-!
Claim C1: process fires due entries in order and counts every firing.
-/

/-- C1: for every sequence of add calls with pairwise distinct start
times and every timestamp now, process(now) fires only entries whose
trigger time at the moment of firing is at most now, fires them in
non-decreasing trigger-time order, and returns exactly the number of
firings: the returned counter equals the number of handler invocations,
and entries that are popped in the Cancelled state are never fired and do
not count. -/
theorem c1_process_fires_due_in_order (adds : List (Nat × Nat × Nat))
    (now : Nat) (hdist : (adds.map (fun a => a.1)).Nodup) :
    (∀ ev ∈ (process now (runAdds adds)).fired, ev.2 ≤ now) ∧
    List.Pairwise (· ≤ ·)
      ((process now (runAdds adds)).fired.map Prod.snd) ∧
    (process now (runAdds adds)).numFired =
      ((process now (runAdds adds)).fired.length : Int) := by
  have hw : WFT (runAdds adds) := runOps_WFT _
  have h := processLoop_fired now
    (queueMeasure now (runAdds adds).timeQueue + 1) (runAdds adds) hw.1
  have hfired : (process now (runAdds adds)).fired =
      (processLoop (queueMeasure now (runAdds adds).timeQueue + 1) now
        (runAdds adds)).fired := rfl
  have hnum : (process now (runAdds adds)).numFired =
      (processLoop (queueMeasure now (runAdds adds).timeQueue + 1) now
        (runAdds adds)).numFired := rfl
  rw [hfired, hnum]
  exact ⟨h.2.1, List.pairwise_map.mpr h.2.2.1, h.2.2.2.1⟩

/-- Witness for C1 at the concrete adds (100, 0) and (50, 10) with
now = 60, whose start times are distinct. -/
theorem c1_process_fires_due_in_order_witness :
    (∀ ev ∈ (process 60 (runAdds [(100, 0, 0), (50, 10, 0)])).fired,
      ev.2 ≤ 60) ∧
    List.Pairwise (· ≤ ·)
      ((process 60 (runAdds [(100, 0, 0), (50, 10, 0)])).fired.map
        Prod.snd) ∧
    (process 60 (runAdds [(100, 0, 0), (50, 10, 0)])).numFired =
      ((process 60 (runAdds [(100, 0, 0), (50, 10, 0)])).fired.length :
        Int) :=
  c1_process_fires_due_in_order [(100, 0, 0), (50, 10, 0)] 60 (by decide)

/-!
Claim C4: lazily cancelled entries stay bounded by half the heap.
-/

/-- C4: after every sequence of add, cancel, process and clear calls,
the number of Cancelled-but-still-heap-resident entries — tracked exactly
by the numCancelled_ counter — never exceeds half the heap size; and the
eager purge behaves as claimed: purgeCancelledTimes partitions the
storage, keeping exactly the non-cancelled entries and freeing every
cancelled one, and whenever a cancellation pushes the counter above half
the heap size, onCancel runs that purge, leaving no cancelled entry
resident. -/
theorem c4_cancelled_bounded_by_half (ops : List Op) :
    (2 * countCancelled (runOps ops).timeQueue ≤
        (runOps ops).timeQueue.length ∧
      (runOps ops).numCancelled =
        (countCancelled (runOps ops).timeQueue : Int)) ∧
    (∀ s : TimersState,
      (purgeCancelledTimes s).timeQueue =
        s.timeQueue.filter (fun e => ¬ e.state = TimeState.cancelled) ∧
      ((s.numCancelled + 1) * 2 > (s.timeQueue.length : Int) →
        ∀ e ∈ (onCancel s).timeQueue,
          ¬ e.state = TimeState.cancelled)) := by
  have hw := runOps_WFT ops
  refine ⟨⟨hw.2.2.2.2, hw.2.2.2.1⟩, ?_⟩
  intro s
  refine ⟨rfl, ?_⟩
  intro hgt e he
  rw [onCancel_of_gt s hgt] at he
  have h := List.of_mem_filter he
  simpa using h

/-- Witness for C4 at the reachable state of scenarioCancelledTop (one
cancelled entry in a queue of two, the boundary case) and at a concrete
onCancel call whose counter exceeds half the queue. -/
theorem c4_cancelled_bounded_by_half_witness :
    2 * countCancelled
        (runOps [Op.add 10 0 0, Op.add 100 0 0, Op.cancel 0]).timeQueue ≤
      (runOps [Op.add 10 0 0, Op.add 100 0 0, Op.cancel 0]).timeQueue.length ∧
    (∀ e ∈ (onCancel scenarioCancelledTop).timeQueue,
      ¬ e.state = TimeState.cancelled) := by
  constructor
  · exact (c4_cancelled_bounded_by_half
      [Op.add 10 0 0, Op.add 100 0 0, Op.cancel 0]).1.1
  · exact ((c4_cancelled_bounded_by_half []).2 scenarioCancelledTop).2
      (by decide)

end KBE
